import Mathlib

/-!
Verification of the rs-lambda repository: a lexer and recursive-descent
parser for untyped lambda-calculus text, free/bound-variable analysis,
canonical rendering, and De Bruijn (levels/indices) conversion.

The definitions below are a shallow embedding of `src/lib.rs` and
`src/bin/slash_to_lambda.rs`.  Strings are embedded as `String`/`List Char`,
Rust `usize` arithmetic as `Nat` modulo `2 ^ 64` (two's-complement wrapping),
`isize` as `Int`, and `HashSet<String>` as `Finset String`.
-/

/-- Fragment of Rust `char::is_alphanumeric` used by the embedding.
The source calls the full Unicode predicate; we embed its ASCII fragment
(letters and digits) together with the lambda glyph `λ` (which is Unicode
alphanumeric in Rust and is the one non-ASCII character the lexer's rules
single out).  Every identifier character in the spec's and claims' inputs
is ASCII, so on those inputs this agrees with the Rust predicate. -/
def char_is_alphanumeric (c : Char) : Bool :=
  c.isAlphanum || c = 'λ'

/-- `Token` (src/lib.rs lines 1-9). -/
inductive Token where
  | LParen
  | RParen
  | Lambda
  | Dot
  | Identifier (id : String)
  | Eof
deriving DecidableEq

/-- The identifier-continuation lookahead of `Lexer::next`
(src/lib.rs line 44): the buffered run keeps growing while the peeked
character `is_alphanumeric() && nch != &'λ'`.  Note: underscore is *not*
accepted by this lookahead (only by the run-start guard on line 41). -/
def identCont (c : Char) : Bool :=
  char_is_alphanumeric c && !(c = 'λ')

/-- The buffering loop inside the identifier arm of `Lexer::next`
(src/lib.rs lines 41-51): push the current character, then flush the buffer
as one `Identifier` the moment the peeked character fails `identCont`. -/
def identRun : List Char → Char → List Char → String × List Char
  | buf, c, [] => (String.mk (buf ++ [c]), [])
  | buf, c, n :: rest =>
    if identCont n then identRun (buf ++ [c]) n rest
    else (String.mk (buf ++ [c]), n :: rest)

/-- `Lexer::next` (src/lib.rs lines 31-56) as a pure function from the
remaining characters to the next token and the characters left after it
(the `buffer` field is empty at every `next()` boundary, so no extra lexer
state is needed).  Unrecognized characters are skipped. -/
def lexNext : List Char → Option (Token × List Char)
  | [] => none
  | c :: rest =>
    if c = '(' then some (Token.LParen, rest)
    else if c = ')' then some (Token.RParen, rest)
    else if c = 'λ' || c = '\\' then some (Token.Lambda, rest)
    else if c = '.' then some (Token.Dot, rest)
    else if c = '\x00' then some (Token.Eof, rest)
    else if char_is_alphanumeric c || c = '_' then
      match identRun [] c rest with
      | (s, rest2) => some (Token.Identifier s, rest2)
    else lexNext rest

/-- Fuelled iteration of `lexNext`; `lexNext` consumes at least one
character per token, so `cs.length` fuel is always enough. -/
def tokensF : Nat → List Char → List Token
  | 0, _ => []
  | fuel + 1, cs =>
    match lexNext cs with
    | none => []
    | some (t, rest) => t :: tokensF fuel rest

/-- The full token sequence the `Lexer` iterator yields on an input. -/
def tokens (cs : List Char) : List Token :=
  tokensF cs.length cs

/-- `LambdaTerm` (src/lib.rs lines 65-76). -/
inductive LambdaTerm where
  | Abstraction (bound_variable : String) (return_term : LambdaTerm)
  | Application (function argument : LambdaTerm)
  | Variable (id : String)
deriving DecidableEq

/-- The inner `free_variables_mut` of `LambdaTerm::free_variables`
(src/lib.rs lines 82-99): one accumulator set is threaded through the whole
traversal (`function` first, then `argument`), and an `Abstraction` removes
its bound name from that shared set after recursing into its body. -/
def free_variables_mut : LambdaTerm → Finset String → Finset String
  | LambdaTerm.Variable id, set => insert id set
  | LambdaTerm.Application f a, set => free_variables_mut a (free_variables_mut f set)
  | LambdaTerm.Abstraction x b, set => (free_variables_mut b set).erase x

/-- `LambdaTerm::free_variables` (src/lib.rs lines 81-103). -/
def LambdaTerm.free_variables (t : LambdaTerm) : Finset String :=
  free_variables_mut t ∅

/-- Modelled from the spec: "the set of names that occur as a Variable
without an enclosing Abstraction of that name anywhere on the path from
root to occurrence" (spec section 4.3 and the glossary's "free variable"),
i.e. the standard free-variable set, computed per subterm and unioned. -/
def spec_free_variables : LambdaTerm → Finset String
  | LambdaTerm.Variable id => {id}
  | LambdaTerm.Application f a => spec_free_variables f ∪ spec_free_variables a
  | LambdaTerm.Abstraction x b => (spec_free_variables b).erase x

/-- `impl fmt::Display for LambdaTerm` (src/lib.rs lines 130-151):
an Application parenthesizes its function only when it is an Abstraction
and its argument unless it is a bare Variable; an Abstraction renders as
`λ`, the bound name, `. `, and the body. -/
def LambdaTerm.render : LambdaTerm → String
  | LambdaTerm.Variable id => id
  | LambdaTerm.Application f a =>
      (match f with
       | LambdaTerm.Abstraction _ _ => "(" ++ LambdaTerm.render f ++ ") "
       | _ => LambdaTerm.render f ++ " ") ++
      (match a with
       | LambdaTerm.Variable _ => LambdaTerm.render a
       | _ => "(" ++ LambdaTerm.render a ++ ")")
  | LambdaTerm.Abstraction x b => "λ" ++ x ++ ". " ++ LambdaTerm.render b

/-- `ParserError` (src/lib.rs lines 153-164). -/
inductive ParserError where
  | PrematureEnd
  | ParenOutOfBounds (paren_index_bound paren_index : Int)
  | ExpectedIdentifierGot (t : Token)
  | ExpectedGot (expected got : Token)
  | Unexpected (t : Token)
  | UnmatchedParens (i : Int)
deriving DecidableEq

/-- The parser's mutable state: the unconsumed tokens of its lexer and the
`paren_index` field (src/lib.rs lines 166-169; `isize` embedded as `Int`). -/
structure PState where
  toks : List Token
  paren_index : Int
deriving DecidableEq

/-- Which of the parser's routines is executing: `Parser::parse_term`'s
head phase, `Parser::parse_abstraction`, or `parse_term`'s application
loop (carrying the accumulated term). -/
inductive PMode where
  | term : PMode
  | abstr : PMode
  | loop : LambdaTerm → PMode
deriving DecidableEq

abbrev PResult := Option (Except ParserError (LambdaTerm × PState))

deriving instance DecidableEq for Except

/-- `Parser::parse_term` / `Parser::parse_abstraction`
(src/lib.rs lines 188-267), fuelled.  The three mutually recursive pieces
of the source (the head `match`, the `while self.paren_index >=
paren_index_bound` application loop, and `parse_abstraction`) are fused
into one function indexed by `PMode`; the fuel decreases on every
recursive call and `none` means fuel ran out (shown unreachable for fuel
exceeding the token count).  `check_bounds` (lines 258-267) is the leading
`if` of the `term` and `abstr` branches. -/
def parseF : Nat → PMode → PState → Int → PResult
  | 0, _, _, _ => none
  | fuel + 1, PMode.term, st, bound =>
    if st.paren_index < bound then
      some (Except.error (ParserError.ParenOutOfBounds bound st.paren_index))
    else
      match st.toks with
      | [] => some (Except.error ParserError.PrematureEnd)
      | Token.Lambda :: rest =>
        match parseF fuel PMode.abstr ⟨rest, st.paren_index⟩ st.paren_index with
        | none => none
        | some (Except.error e) => some (Except.error e)
        | some (Except.ok (t, st2)) => parseF fuel (PMode.loop t) st2 bound
      | Token.Dot :: _ => some (Except.error (ParserError.Unexpected Token.Dot))
      | Token.RParen :: _ => some (Except.error (ParserError.Unexpected Token.RParen))
      | Token.LParen :: rest =>
        match parseF fuel PMode.term ⟨rest, st.paren_index + 1⟩ (st.paren_index + 1) with
        | none => none
        | some (Except.error e) => some (Except.error e)
        | some (Except.ok (t, st2)) => parseF fuel (PMode.loop t) st2 bound
      | Token.Identifier id :: rest =>
        parseF fuel (PMode.loop (LambdaTerm.Variable id)) ⟨rest, st.paren_index⟩ bound
      | Token.Eof :: _ => some (Except.error ParserError.PrematureEnd)
  | fuel + 1, PMode.abstr, st, bound =>
    if st.paren_index < bound then
      some (Except.error (ParserError.ParenOutOfBounds bound st.paren_index))
    else
      match st.toks with
      | [] => some (Except.error ParserError.PrematureEnd)
      | Token.Identifier bv :: rest =>
        (match rest with
         | [] => some (Except.error ParserError.PrematureEnd)
         | Token.Dot :: rest2 =>
           match parseF fuel PMode.term ⟨rest2, st.paren_index⟩ st.paren_index with
           | none => none
           | some (Except.error e) => some (Except.error e)
           | some (Except.ok (t, st2)) =>
             some (Except.ok (LambdaTerm.Abstraction bv t, st2))
         | t2 :: _ => some (Except.error (ParserError.ExpectedGot Token.Dot t2)))
      | t1 :: _ => some (Except.error (ParserError.ExpectedIdentifierGot t1))
  | fuel + 1, PMode.loop term, st, bound =>
    if st.paren_index < bound then some (Except.ok (term, st))
    else
      match st.toks with
      | [] => some (Except.ok (term, st))
      | Token.LParen :: rest =>
        match parseF fuel PMode.term ⟨rest, st.paren_index + 1⟩ (st.paren_index + 1) with
        | none => none
        | some (Except.error e) => some (Except.error e)
        | some (Except.ok (arg, st2)) =>
          parseF fuel (PMode.loop (LambdaTerm.Application term arg)) st2 bound
      | Token.RParen :: rest =>
        parseF fuel (PMode.loop term) ⟨rest, st.paren_index - 1⟩ bound
      | Token.Lambda :: rest =>
        match parseF fuel PMode.abstr ⟨rest, st.paren_index⟩ st.paren_index with
        | none => none
        | some (Except.error e) => some (Except.error e)
        | some (Except.ok (arg, st2)) =>
          parseF fuel (PMode.loop (LambdaTerm.Application term arg)) st2 bound
      | Token.Identifier id :: rest =>
        parseF fuel (PMode.loop (LambdaTerm.Application term (LambdaTerm.Variable id)))
          ⟨rest, st.paren_index⟩ bound
      | Token.Eof :: rest => parseF fuel (PMode.loop term) ⟨rest, st.paren_index⟩ bound
      | Token.Dot :: _ => some (Except.error (ParserError.Unexpected Token.Dot))

/-- The top-level `self.parse_term(self.paren_index)` call inside
`Parser::parse` (src/lib.rs line 180), on a freshly constructed parser
(`paren_index = 0`), with enough fuel that it never cuts off. -/
def parseTop (cs : List Char) : PResult :=
  parseF ((tokens cs).length + 1) PMode.term ⟨tokens cs, 0⟩ 0

/-- `Parser::parse` (src/lib.rs lines 179-186) on a fresh parser over the
lexer for `cs`.  The `none` branch is unreachable — `parseTop` always
returns `some` (see the totality theorem below) — and is mapped to an
arbitrary error value. -/
def parse (cs : List Char) : Except ParserError LambdaTerm :=
  match parseTop cs with
  | none => Except.error ParserError.PrematureEnd
  | some (Except.error e) => Except.error e
  | some (Except.ok (t, st)) =>
    if st.paren_index ≠ 0 then Except.error (ParserError.UnmatchedParens st.paren_index)
    else Except.ok t

/-- `DBTerm` (src/lib.rs lines 270-278). -/
inductive DBTerm where
  | Variable (n : Nat)
  | Application (function argument : DBTerm)
  | Abstraction (return_term : DBTerm)
  | FreeVariable (id : String)
deriving DecidableEq

/-- The modulus of Rust `usize` on a 64-bit target. -/
def USIZE : Nat := 2 ^ 64

/-- `usize` addition with two's-complement wrapping. -/
def usize_add (a b : Nat) : Nat := (a + b) % USIZE

/-- `usize` subtraction with two's-complement wrapping. -/
def usize_sub (a b : Nat) : Nat := (a + (USIZE - b % USIZE)) % USIZE

/-- The `reindex` helper shared verbatim by `impl From<DBLevels> for
DBIndices` (src/lib.rs lines 326-344) and `impl From<DBIndices> for
DBLevels` (lines 346-364): each stored number becomes
`abstraction_depth - level + 1` (in `usize` arithmetic) during a
depth-tracking traversal. -/
def reindex : DBTerm → Nat → DBTerm
  | DBTerm.FreeVariable id, _ => DBTerm.FreeVariable id
  | DBTerm.Variable level, abstraction_depth =>
      DBTerm.Variable (usize_add (usize_sub abstraction_depth level) 1)
  | DBTerm.Application f a, d => DBTerm.Application (reindex f d) (reindex a d)
  | DBTerm.Abstraction b, d => DBTerm.Abstraction (reindex b (usize_add d 1))

/-- `impl From<DBLevels> for DBIndices` (src/lib.rs lines 326-344),
on the underlying trees. -/
def dbLevelsToIndices (t : DBTerm) : DBTerm := reindex t 0

/-- `impl From<DBIndices> for DBLevels` (src/lib.rs lines 346-364),
on the underlying trees. -/
def dbIndicesToLevels (t : DBTerm) : DBTerm := reindex t 0

/-- Every stored `Variable` number fits in `usize` (always true of the
Rust values by their type). -/
def db_wf : DBTerm → Bool
  | DBTerm.Variable n => decide (n < USIZE)
  | DBTerm.FreeVariable _ => true
  | DBTerm.Application f a => db_wf f && db_wf a
  | DBTerm.Abstraction b => db_wf b

/-- The `convert` helper of `impl From<LambdaTerm> for DBLevels`
(src/lib.rs lines 382-420).  The source threads a mutable
`HashMap<String, usize>` with save/restore on leaving an Abstraction,
which restores the map exactly; the functional update below is therefore
equivalent. -/
def convert : LambdaTerm → Nat → (String → Option Nat) → DBTerm
  | LambdaTerm.Abstraction x b, depth, m =>
      let new_depth := usize_add depth 1
      DBTerm.Abstraction
        (convert b new_depth (fun id => if id = x then some new_depth else m id))
  | LambdaTerm.Application f a, depth, m =>
      DBTerm.Application (convert f depth m) (convert a depth m)
  | LambdaTerm.Variable id, _, m =>
      match m id with
      | some level => DBTerm.Variable level
      | none => DBTerm.FreeVariable id

/-- `impl From<LambdaTerm> for DBLevels` (src/lib.rs lines 382-420),
on the underlying tree. -/
def lambdaToDBLevels (t : LambdaTerm) : DBTerm :=
  convert t 0 (fun _ => none)

/-- `impl From<LambdaTerm> for DBIndices` (src/lib.rs lines 422-426):
via levels. -/
def lambdaToDBIndices (t : LambdaTerm) : DBTerm :=
  dbLevelsToIndices (lambdaToDBLevels t)

/-- `impl fmt::Display for DBTerm` (src/lib.rs lines 305-324). -/
def DBTerm.render : DBTerm → String
  | DBTerm.Variable n => toString n
  | DBTerm.FreeVariable id => id
  | DBTerm.Application f a =>
      (match f with
       | DBTerm.Abstraction _ => "(" ++ DBTerm.render f ++ ") "
       | _ => DBTerm.render f ++ " ") ++
      (match a with
       | DBTerm.Variable _ => DBTerm.render a
       | DBTerm.FreeVariable _ => DBTerm.render a
       | _ => "(" ++ DBTerm.render a ++ ")")
  | DBTerm.Abstraction b => "λ " ++ DBTerm.render b

/-- The character substitution of `src/bin/slash_to_lambda.rs` (lines
4-13): map every `\` to `λ` and leave every other character unchanged. -/
def slash_to_lambda (text : List Char) : List Char :=
  text.map fun ch => if ch = '\\' then 'λ' else ch

/-! ### Auxiliary definitions used to state and prove the theorems -/

/-- A character that can start an identifier run in `Lexer::next`: it
passes the run-start guard (alphanumeric or underscore, line 41) and was
not captured by the earlier `'λ' | '\\'` arm. -/
def identStart (c : Char) : Bool :=
  (char_is_alphanumeric c || c = '_') && !(c = 'λ')

/-- A string that the lexer emits as one `Identifier` token (and re-lexes
as one): nonempty, a legal start character, and every later character
accepted by the continuation lookahead. -/
def wfName (s : String) : Bool :=
  match s.data with
  | [] => false
  | c :: cs => identStart c && cs.all identCont

/-- Every variable and binder name in the term is a `wfName`. -/
def wfTerm : LambdaTerm → Bool
  | LambdaTerm.Variable id => wfName id
  | LambdaTerm.Abstraction x b => wfName x && wfTerm b
  | LambdaTerm.Application f a => wfTerm f && wfTerm a

/-- The character sequence does not begin with a character that would
extend a preceding identifier run. -/
def headNotContC : List Char → Bool
  | [] => true
  | c :: _ => !(identCont c)

/-- The token sequence begins with `RParen` or is empty — the two shapes
of leftover input that end a `parse_term` run cleanly. -/
def headRP : List Token → Bool
  | [] => true
  | Token.RParen :: _ => true
  | _ => false

/-- The parser state a `parse_term` call leaves behind when its own tokens
are exhausted and `rest` (empty or `RParen`-headed) follows: an empty
stream, or the stream past the `RParen` with `paren_index` decremented. -/
def afterRest (rest : List Token) (pi : Int) : PState :=
  match rest with
  | [] => ⟨[], pi⟩
  | _ :: r => ⟨r, pi - 1⟩

/-- The token sequence that lexing `LambdaTerm.render t` produces
(proved below). -/
def tokRender : LambdaTerm → List Token
  | LambdaTerm.Variable id => [Token.Identifier id]
  | LambdaTerm.Abstraction x b =>
      Token.Lambda :: Token.Identifier x :: Token.Dot :: tokRender b
  | LambdaTerm.Application f a =>
      (match f with
       | LambdaTerm.Abstraction _ _ => Token.LParen :: (tokRender f ++ [Token.RParen])
       | _ => tokRender f) ++
      (match a with
       | LambdaTerm.Variable id => [Token.Identifier id]
       | _ => Token.LParen :: (tokRender a ++ [Token.RParen]))

/-- The tokens of one juxtaposed argument in a rendered application. -/
def argToks : LambdaTerm → List Token
  | LambdaTerm.Variable id => [Token.Identifier id]
  | a => Token.LParen :: (tokRender a ++ [Token.RParen])

/-- The tokens of a list of juxtaposed arguments. -/
def argsToks : List LambdaTerm → List Token
  | [] => []
  | a :: rest => argToks a ++ argsToks rest

/-- The leftmost non-Application term of an application spine. -/
def spineHead : LambdaTerm → LambdaTerm
  | LambdaTerm.Application f _ => spineHead f
  | t => t

/-- The arguments of an application spine, leftmost first. -/
def spineArgs : LambdaTerm → List LambdaTerm
  | LambdaTerm.Application f a => spineArgs f ++ [a]
  | _ => []

/-- The tokens of a spine head that is followed by at least one argument
(an Abstraction head is parenthesized by the rendering). -/
def headToksA : LambdaTerm → List Token
  | LambdaTerm.Abstraction x b =>
      Token.LParen :: (tokRender (LambdaTerm.Abstraction x b) ++ [Token.RParen])
  | h => tokRender h

/-- Contribution of one token to the running parenthesis depth. -/
def tokDelta : Token → Int
  | Token.LParen => 1
  | Token.RParen => -1
  | _ => 0

/-- Open-parens minus close-parens in a token sequence. -/
def balance (ts : List Token) : Int :=
  (ts.map tokDelta).sum

/-- The result is not a `ParenOutOfBounds` error. -/
def noPOOB (r : PResult) : Prop :=
  ∀ x y, r ≠ some (Except.error (ParserError.ParenOutOfBounds x y))

/-! ### Lexer lemmas -/

theorem identRun_shape : ∀ cs buf c, ∃ taken rm,
    identRun buf c cs = (String.mk (buf ++ c :: taken), rm) ∧
    taken.all identCont = true ∧ rm.length ≤ cs.length := by
  intro cs
  induction cs with
  | nil => intro buf c; exact ⟨[], [], rfl, rfl, by simp⟩
  | cons n rest ih =>
    intro buf c
    by_cases h : identCont n = true
    · obtain ⟨taken, rm, heq, hall, hlen⟩ := ih (buf ++ [c]) n
      refine ⟨n :: taken, rm, ?_, ?_, ?_⟩
      · simpa [identRun, h, List.append_assoc] using heq
      · simp [h, hall]
      · simp; omega
    · exact ⟨[], n :: rest, by simp [identRun, h], rfl, by simp⟩

theorem identRun_spec : ∀ cs buf c rest, cs.all identCont = true → headNotContC rest = true →
    identRun buf c (cs ++ rest) = (String.mk (buf ++ c :: cs), rest) := by
  intro cs
  induction cs with
  | nil =>
    intro buf c rest _ hrest
    cases rest with
    | nil => simp [identRun]
    | cons r rs =>
      have hr : identCont r = false := by simpa [headNotContC] using hrest
      simp [identRun, hr]
  | cons n ns ih =>
    intro buf c rest hall hrest
    have hn : identCont n = true := by simp at hall; exact hall.1
    have hns : ns.all identCont = true := by simp at hall; simp [List.all_eq_true]; exact hall.2
    simp only [List.cons_append]
    rw [show identRun buf c (n :: (ns ++ rest)) = identRun (buf ++ [c]) n (ns ++ rest) by
      simp [identRun, hn]]
    rw [ih (buf ++ [c]) n rest hns hrest]
    simp

theorem lexNext_length : ∀ cs t rest, lexNext cs = some (t, rest) → rest.length < cs.length := by
  intro cs
  induction cs with
  | nil => intro t rest h; simp [lexNext] at h
  | cons c cs0 ih =>
    intro t rest h
    simp only [lexNext] at h
    split at h
    · cases h; simp
    · split at h
      · cases h; simp
      · split at h
        · cases h; simp
        · split at h
          · cases h; simp
          · split at h
            · cases h; simp
            · split at h
              · obtain ⟨taken, rm, heq, -, hlen⟩ := identRun_shape cs0 [] c
                rw [heq] at h
                cases h
                simp
                omega
              · have := ih t rest h
                simp
                omega

theorem tokensF_nil : ∀ f, tokensF f [] = [] := by
  intro f
  cases f <;> simp [tokensF, lexNext]

theorem tokensF_congr : ∀ f1 cs f2, cs.length ≤ f1 → cs.length ≤ f2 →
    tokensF f1 cs = tokensF f2 cs := by
  intro f1
  induction f1 with
  | zero =>
    intro cs f2 h1 _
    have : cs = [] := List.eq_nil_of_length_eq_zero (Nat.le_zero.mp h1)
    subst this
    rw [tokensF_nil, tokensF_nil]
  | succ n ih =>
    intro cs f2 h1 h2
    cases cs with
    | nil => rw [tokensF_nil, tokensF_nil]
    | cons c rest0 =>
      cases f2 with
      | zero => simp at h2
      | succ m =>
        simp only [tokensF]
        cases hx : lexNext (c :: rest0) with
        | none => rfl
        | some pr =>
          obtain ⟨t, r⟩ := pr
          have hr := lexNext_length _ _ _ hx
          simp only [List.length_cons] at h1 h2 hr
          exact congrArg (t :: ·) (ih r m (by omega) (by omega))

theorem tokens_eq_none {cs : List Char} (h : lexNext cs = none) : tokens cs = [] := by
  unfold tokens
  cases hl : cs.length with
  | zero => simp [tokensF]
  | succ k => simp [tokensF, h]

theorem tokens_eq_some {cs : List Char} {t : Token} {r : List Char}
    (h : lexNext cs = some (t, r)) : tokens cs = t :: tokens r := by
  have hr := lexNext_length _ _ _ h
  unfold tokens
  cases hl : cs.length with
  | zero =>
    exfalso
    have : cs = [] := List.eq_nil_of_length_eq_zero hl
    subst this
    simp [lexNext] at h
  | succ k =>
    simp only [tokensF, h]
    exact congrArg (t :: ·) (tokensF_congr k r r.length (by omega) (by omega))

/-! ### Parser bookkeeping: consumed tokens and the parenthesis balance -/

theorem balance_nil : balance [] = 0 := rfl

theorem balance_cons (tk : Token) (ts : List Token) :
    balance (tk :: ts) = tokDelta tk + balance ts := by
  simp [balance]

theorem balance_append (xs ys : List Token) :
    balance (xs ++ ys) = balance xs + balance ys := by
  simp [balance]

/-- Composing two successful sub-runs of the parser. -/
theorem bal_comp {n : Nat} {m1 m2 : PMode} {toksA : List Token} {piA : Int} {b1 b2 : Int}
    {t1 : LambdaTerm} {st1 : PState} {t : LambdaTerm} {st2 : PState}
    (ih : ∀ mode st bound tt ss, parseF n mode st bound = some (Except.ok (tt, ss)) →
      ∃ pre, st.toks = pre ++ ss.toks ∧ ss.paren_index = st.paren_index + balance pre)
    (h1 : parseF n m1 ⟨toksA, piA⟩ b1 = some (Except.ok (t1, st1)))
    (h2 : parseF n m2 st1 b2 = some (Except.ok (t, st2))) :
    ∃ pre, toksA = pre ++ st2.toks ∧ st2.paren_index = piA + balance pre := by
  obtain ⟨p1, hp1, hq1⟩ := ih _ _ _ _ _ h1
  obtain ⟨p2, hp2, hq2⟩ := ih _ _ _ _ _ h2
  refine ⟨p1 ++ p2, ?_, ?_⟩
  · simp only [] at hp1
    rw [hp1, hp2, List.append_assoc]
  · rw [balance_append]
    simp only [] at hq1
    omega

/-- Prepending the consumed head token to a sub-run's consumption. -/
theorem bal_cons {tok : Token} {restT : List Token} {pi piInner : Int} {st2 : PState}
    {pre : List Token}
    (hpre : restT = pre ++ st2.toks) (hpi : st2.paren_index = piInner + balance pre)
    (hd : piInner = pi + tokDelta tok) :
    ∃ p, tok :: restT = p ++ st2.toks ∧ st2.paren_index = pi + balance p :=
  ⟨tok :: pre, by simp [hpre], by rw [balance_cons]; omega⟩

/-- A successful `parseF` run consumes a prefix of its tokens and moves
`paren_index` by exactly the parenthesis balance of that prefix. -/
theorem parseF_bal : ∀ fuel mode st bound t st2,
    parseF fuel mode st bound = some (Except.ok (t, st2)) →
    ∃ pre, st.toks = pre ++ st2.toks ∧ st2.paren_index = st.paren_index + balance pre := by
  intro fuel
  induction fuel with
  | zero => intro mode st bound t st2 h; simp [parseF] at h
  | succ n ih =>
    intro mode st bound t st2 h
    obtain ⟨toks, pi⟩ := st
    cases mode with
    | term =>
      simp only [parseF] at h
      split at h
      · simp at h
      · cases toks with
        | nil => simp at h
        | cons tk rest =>
          cases tk with
          | Lambda =>
            simp only [] at h
            cases hin : parseF n PMode.abstr ⟨rest, pi⟩ pi with
            | none => rw [hin] at h; simp at h
            | some r =>
              cases r with
              | error e => rw [hin] at h; simp at h
              | ok p =>
                obtain ⟨t1, st1⟩ := p
                rw [hin] at h
                simp only [] at h
                obtain ⟨pre, hpre, hpi⟩ := bal_comp ih hin h
                exact bal_cons hpre hpi (by simp only [tokDelta]; try omega)
          | Dot => simp at h
          | RParen => simp at h
          | LParen =>
            simp only [] at h
            cases hin : parseF n PMode.term ⟨rest, pi + 1⟩ (pi + 1) with
            | none => rw [hin] at h; simp at h
            | some r =>
              cases r with
              | error e => rw [hin] at h; simp at h
              | ok p =>
                obtain ⟨t1, st1⟩ := p
                rw [hin] at h
                simp only [] at h
                obtain ⟨pre, hpre, hpi⟩ := bal_comp ih hin h
                exact bal_cons hpre hpi (by simp only [tokDelta]; try omega)
          | Identifier id =>
            simp only [] at h
            obtain ⟨pre, hpre, hpi⟩ := ih _ _ _ _ _ h
            simp only [] at hpre hpi
            exact bal_cons hpre hpi (by simp only [tokDelta]; try omega)
          | Eof => simp at h
    | abstr =>
      simp only [parseF] at h
      split at h
      · simp at h
      · cases toks with
        | nil => simp at h
        | cons tk rest =>
          cases tk with
          | Identifier bv =>
            simp only [] at h
            cases rest with
            | nil => simp at h
            | cons tk2 rest2 =>
              cases tk2 with
              | Dot =>
                simp only [] at h
                cases hin : parseF n PMode.term ⟨rest2, pi⟩ pi with
                | none => rw [hin] at h; simp at h
                | some r =>
                  cases r with
                  | error e => rw [hin] at h; simp at h
                  | ok p =>
                    obtain ⟨t1, st1⟩ := p
                    rw [hin] at h
                    simp only [Option.some.injEq, Except.ok.injEq, Prod.mk.injEq] at h
                    obtain ⟨-, rfl⟩ := h
                    obtain ⟨pre1, hpre1, hpi1⟩ := ih _ _ _ _ _ hin
                    simp only [] at hpre1 hpi1
                    refine ⟨Token.Identifier bv :: Token.Dot :: pre1, ?_, ?_⟩
                    · simp [hpre1]
                    · rw [balance_cons, balance_cons]
                      simp only [tokDelta]
                      omega
              | LParen => simp at h
              | RParen => simp at h
              | Lambda => simp at h
              | Identifier id2 => simp at h
              | Eof => simp at h
          | LParen => simp at h
          | RParen => simp at h
          | Lambda => simp at h
          | Dot => simp at h
          | Eof => simp at h
    | loop acc =>
      simp only [parseF] at h
      split at h
      · simp only [Option.some.injEq, Except.ok.injEq, Prod.mk.injEq] at h
        obtain ⟨rfl, rfl⟩ := h
        exact ⟨[], rfl, by simp [balance_nil]⟩
      · cases toks with
        | nil =>
          simp only [Option.some.injEq, Except.ok.injEq, Prod.mk.injEq] at h
          obtain ⟨rfl, rfl⟩ := h
          exact ⟨[], rfl, by simp [balance_nil]⟩
        | cons tk rest =>
          cases tk with
          | LParen =>
            simp only [] at h
            cases hin : parseF n PMode.term ⟨rest, pi + 1⟩ (pi + 1) with
            | none => rw [hin] at h; simp at h
            | some r =>
              cases r with
              | error e => rw [hin] at h; simp at h
              | ok p =>
                obtain ⟨t1, st1⟩ := p
                rw [hin] at h
                simp only [] at h
                obtain ⟨pre, hpre, hpi⟩ := bal_comp ih hin h
                exact bal_cons hpre hpi (by simp only [tokDelta]; try omega)
          | Lambda =>
            simp only [] at h
            cases hin : parseF n PMode.abstr ⟨rest, pi⟩ pi with
            | none => rw [hin] at h; simp at h
            | some r =>
              cases r with
              | error e => rw [hin] at h; simp at h
              | ok p =>
                obtain ⟨t1, st1⟩ := p
                rw [hin] at h
                simp only [] at h
                obtain ⟨pre, hpre, hpi⟩ := bal_comp ih hin h
                exact bal_cons hpre hpi (by simp only [tokDelta]; try omega)
          | RParen =>
            simp only [] at h
            obtain ⟨pre, hpre, hpi⟩ := ih _ _ _ _ _ h
            simp only [] at hpre hpi
            exact bal_cons hpre hpi (by simp only [tokDelta]; try omega)
          | Identifier id =>
            simp only [] at h
            obtain ⟨pre, hpre, hpi⟩ := ih _ _ _ _ _ h
            simp only [] at hpre hpi
            exact bal_cons hpre hpi (by simp only [tokDelta]; try omega)
          | Eof =>
            simp only [] at h
            obtain ⟨pre, hpre, hpi⟩ := ih _ _ _ _ _ h
            simp only [] at hpre hpi
            exact bal_cons hpre hpi (by simp only [tokDelta]; try omega)
          | Dot => simp at h

/-- Length form of `parseF_bal`: a successful run never grows the stream. -/
theorem parseF_len {fuel : Nat} {mode : PMode} {st : PState} {bound : Int}
    {t : LambdaTerm} {st2 : PState}
    (h : parseF fuel mode st bound = some (Except.ok (t, st2))) :
    st2.toks.length ≤ st.toks.length := by
  obtain ⟨pre, hpre, -⟩ := parseF_bal _ _ _ _ _ _ h
  rw [hpre, List.length_append]
  omega

/-- With more fuel than tokens, the parser never runs out of fuel: every
token is consumed at most once, so the number of recursive steps is
bounded by the token count. -/
theorem parseF_total : ∀ fuel mode st bound, st.toks.length < fuel →
    parseF fuel mode st bound ≠ none := by
  intro fuel
  induction fuel with
  | zero => intro mode st bound h; omega
  | succ n ih =>
    intro mode st bound hlen
    obtain ⟨toks, pi⟩ := st
    simp only [List.length_cons] at hlen
    cases mode with
    | term =>
      simp only [parseF]
      split
      · simp
      · cases toks with
        | nil => simp
        | cons tk rest =>
          simp only [List.length_cons] at hlen
          cases tk with
          | Lambda =>
            simp only []
            cases hin : parseF n PMode.abstr ⟨rest, pi⟩ pi with
            | none => exact absurd hin (ih _ _ _ (by simp; omega))
            | some r =>
              cases r with
              | error e => simp
              | ok p =>
                obtain ⟨t1, st1⟩ := p
                simp only []
                have hl := parseF_len hin
                simp only [] at hl
                exact ih _ _ _ (by omega)
          | Dot => simp
          | RParen => simp
          | LParen =>
            simp only []
            cases hin : parseF n PMode.term ⟨rest, pi + 1⟩ (pi + 1) with
            | none => exact absurd hin (ih _ _ _ (by simp; omega))
            | some r =>
              cases r with
              | error e => simp
              | ok p =>
                obtain ⟨t1, st1⟩ := p
                simp only []
                have hl := parseF_len hin
                simp only [] at hl
                exact ih _ _ _ (by omega)
          | Identifier id =>
            simp only []
            exact ih _ _ _ (by simp; omega)
          | Eof => simp
    | abstr =>
      simp only [parseF]
      split
      · simp
      · cases toks with
        | nil => simp
        | cons tk rest =>
          simp only [List.length_cons] at hlen
          cases tk with
          | Identifier bv =>
            simp only []
            cases rest with
            | nil => simp
            | cons tk2 rest2 =>
              simp only [List.length_cons] at hlen
              cases tk2 with
              | Dot =>
                simp only []
                cases hin : parseF n PMode.term ⟨rest2, pi⟩ pi with
                | none => exact absurd hin (ih _ _ _ (by simp; omega))
                | some r =>
                  cases r with
                  | error e => simp
                  | ok p => obtain ⟨t1, st1⟩ := p; simp
              | LParen => simp
              | RParen => simp
              | Lambda => simp
              | Identifier id2 => simp
              | Eof => simp
          | LParen => simp
          | RParen => simp
          | Lambda => simp
          | Dot => simp
          | Eof => simp
    | loop acc =>
      simp only [parseF]
      split
      · simp
      · cases toks with
        | nil => simp
        | cons tk rest =>
          simp only [List.length_cons] at hlen
          cases tk with
          | LParen =>
            simp only []
            cases hin : parseF n PMode.term ⟨rest, pi + 1⟩ (pi + 1) with
            | none => exact absurd hin (ih _ _ _ (by simp; omega))
            | some r =>
              cases r with
              | error e => simp
              | ok p =>
                obtain ⟨arg, st1⟩ := p
                simp only []
                have hl := parseF_len hin
                simp only [] at hl
                exact ih _ _ _ (by omega)
          | Lambda =>
            simp only []
            cases hin : parseF n PMode.abstr ⟨rest, pi⟩ pi with
            | none => exact absurd hin (ih _ _ _ (by simp; omega))
            | some r =>
              cases r with
              | error e => simp
              | ok p =>
                obtain ⟨arg, st1⟩ := p
                simp only []
                have hl := parseF_len hin
                simp only [] at hl
                exact ih _ _ _ (by omega)
          | RParen =>
            simp only []
            exact ih _ _ _ (by simp; omega)
          | Identifier id =>
            simp only []
            exact ih _ _ _ (by simp; omega)
          | Eof =>
            simp only []
            exact ih _ _ _ (by simp; omega)
          | Dot => simp

/-- A successful `parse_term` run (and its application loop) ends only by
exhausting the token stream or by dropping `paren_index` below its bound. -/
theorem parseF_exit : ∀ fuel st bound,
    (∀ t st2, parseF fuel PMode.term st bound = some (Except.ok (t, st2)) →
      st2.toks = [] ∨ st2.paren_index < bound) ∧
    (∀ acc t st2, parseF fuel (PMode.loop acc) st bound = some (Except.ok (t, st2)) →
      st2.toks = [] ∨ st2.paren_index < bound) := by
  intro fuel
  induction fuel with
  | zero =>
    intro st bound
    exact ⟨fun t st2 h => by simp [parseF] at h, fun acc t st2 h => by simp [parseF] at h⟩
  | succ n ih =>
    intro st bound
    obtain ⟨toks, pi⟩ := st
    constructor
    · intro t st2 h
      simp only [parseF] at h
      split at h
      · simp at h
      · cases toks with
        | nil => simp at h
        | cons tk rest =>
          cases tk with
          | Lambda =>
            simp only [] at h
            cases hin : parseF n PMode.abstr ⟨rest, pi⟩ pi with
            | none => rw [hin] at h; simp at h
            | some r =>
              cases r with
              | error e => rw [hin] at h; simp at h
              | ok p =>
                obtain ⟨t1, st1⟩ := p
                rw [hin] at h
                simp only [] at h
                exact (ih st1 bound).2 _ _ _ h
          | Dot => simp at h
          | RParen => simp at h
          | LParen =>
            simp only [] at h
            cases hin : parseF n PMode.term ⟨rest, pi + 1⟩ (pi + 1) with
            | none => rw [hin] at h; simp at h
            | some r =>
              cases r with
              | error e => rw [hin] at h; simp at h
              | ok p =>
                obtain ⟨t1, st1⟩ := p
                rw [hin] at h
                simp only [] at h
                exact (ih st1 bound).2 _ _ _ h
          | Identifier id =>
            simp only [] at h
            exact (ih ⟨rest, pi⟩ bound).2 _ _ _ h
          | Eof => simp at h
    · intro acc t st2 h
      simp only [parseF] at h
      split at h
      · simp only [Option.some.injEq, Except.ok.injEq, Prod.mk.injEq] at h
        obtain ⟨rfl, rfl⟩ := h
        right
        assumption
      · cases toks with
        | nil =>
          simp only [Option.some.injEq, Except.ok.injEq, Prod.mk.injEq] at h
          obtain ⟨rfl, rfl⟩ := h
          left
          rfl
        | cons tk rest =>
          cases tk with
          | LParen =>
            simp only [] at h
            cases hin : parseF n PMode.term ⟨rest, pi + 1⟩ (pi + 1) with
            | none => rw [hin] at h; simp at h
            | some r =>
              cases r with
              | error e => rw [hin] at h; simp at h
              | ok p =>
                obtain ⟨arg, st1⟩ := p
                rw [hin] at h
                simp only [] at h
                exact (ih st1 bound).2 _ _ _ h
          | Lambda =>
            simp only [] at h
            cases hin : parseF n PMode.abstr ⟨rest, pi⟩ pi with
            | none => rw [hin] at h; simp at h
            | some r =>
              cases r with
              | error e => rw [hin] at h; simp at h
              | ok p =>
                obtain ⟨arg, st1⟩ := p
                rw [hin] at h
                simp only [] at h
                exact (ih st1 bound).2 _ _ _ h
          | RParen =>
            simp only [] at h
            exact (ih ⟨rest, pi - 1⟩ bound).2 _ _ _ h
          | Identifier id =>
            simp only [] at h
            exact (ih ⟨rest, pi⟩ bound).2 _ _ _ h
          | Eof =>
            simp only [] at h
            exact (ih ⟨rest, pi⟩ bound).2 _ _ _ h
          | Dot => simp at h

/-- Every internal call passes the current `paren_index` as the bound, so
`check_bounds` never fires: no run produces `ParenOutOfBounds`. -/
theorem parseF_noPOOB : ∀ fuel,
    (∀ st bound, bound ≤ st.paren_index → noPOOB (parseF fuel PMode.term st bound)) ∧
    (∀ st bound, bound ≤ st.paren_index → noPOOB (parseF fuel PMode.abstr st bound)) ∧
    (∀ acc st bound, noPOOB (parseF fuel (PMode.loop acc) st bound)) := by
  intro fuel
  induction fuel with
  | zero =>
    refine ⟨fun st bound _ x y => ?_, fun st bound _ x y => ?_, fun acc st bound x y => ?_⟩ <;>
      simp [parseF]
  | succ n ih =>
    obtain ⟨ihTerm, ihAbstr, ihLoop⟩ := ih
    refine ⟨?_, ?_, ?_⟩
    · intro st bound hb x y
      obtain ⟨toks, pi⟩ := st
      simp only [] at hb
      simp only [parseF]
      split
      · omega
      · cases toks with
        | nil => simp
        | cons tk rest =>
          cases tk with
          | Lambda =>
            simp only []
            cases hin : parseF n PMode.abstr ⟨rest, pi⟩ pi with
            | none => simp
            | some r =>
              cases r with
              | error e =>
                simp only []
                intro heq
                exact ihAbstr ⟨rest, pi⟩ pi (le_refl pi) x y (by rw [hin]; injection heq with h2; rw [h2])
              | ok p =>
                obtain ⟨t1, st1⟩ := p
                simp only []
                exact ihLoop t1 st1 bound x y
          | Dot => simp
          | RParen => simp
          | LParen =>
            simp only []
            cases hin : parseF n PMode.term ⟨rest, pi + 1⟩ (pi + 1) with
            | none => simp
            | some r =>
              cases r with
              | error e =>
                simp only []
                intro heq
                exact ihTerm ⟨rest, pi + 1⟩ (pi + 1) (le_refl _) x y
                  (by rw [hin]; injection heq with h2; rw [h2])
              | ok p =>
                obtain ⟨t1, st1⟩ := p
                simp only []
                exact ihLoop t1 st1 bound x y
          | Identifier id =>
            simp only []
            exact ihLoop (LambdaTerm.Variable id) ⟨rest, pi⟩ bound x y
          | Eof => simp
    · intro st bound hb x y
      obtain ⟨toks, pi⟩ := st
      simp only [] at hb
      simp only [parseF]
      split
      · omega
      · cases toks with
        | nil => simp
        | cons tk rest =>
          cases tk with
          | Identifier bv =>
            simp only []
            cases rest with
            | nil => simp
            | cons tk2 rest2 =>
              cases tk2 with
              | Dot =>
                simp only []
                cases hin : parseF n PMode.term ⟨rest2, pi⟩ pi with
                | none => simp
                | some r =>
                  cases r with
                  | error e =>
                    simp only []
                    intro heq
                    exact ihTerm ⟨rest2, pi⟩ pi (le_refl pi) x y
                      (by rw [hin]; injection heq with h2; rw [h2])
                  | ok p => obtain ⟨t1, st1⟩ := p; simp
              | LParen => simp
              | RParen => simp
              | Lambda => simp
              | Identifier id2 => simp
              | Eof => simp
          | LParen => simp
          | RParen => simp
          | Lambda => simp
          | Dot => simp
          | Eof => simp
    · intro acc st bound x y
      obtain ⟨toks, pi⟩ := st
      simp only [parseF]
      split
      · simp
      · cases toks with
        | nil => simp
        | cons tk rest =>
          cases tk with
          | LParen =>
            simp only []
            cases hin : parseF n PMode.term ⟨rest, pi + 1⟩ (pi + 1) with
            | none => simp
            | some r =>
              cases r with
              | error e =>
                simp only []
                intro heq
                exact ihTerm ⟨rest, pi + 1⟩ (pi + 1) (le_refl _) x y
                  (by rw [hin]; injection heq with h2; rw [h2])
              | ok p =>
                obtain ⟨arg, st1⟩ := p
                simp only []
                exact ihLoop (LambdaTerm.Application acc arg) st1 bound x y
          | Lambda =>
            simp only []
            cases hin : parseF n PMode.abstr ⟨rest, pi⟩ pi with
            | none => simp
            | some r =>
              cases r with
              | error e =>
                simp only []
                intro heq
                exact ihAbstr ⟨rest, pi⟩ pi (le_refl pi) x y
                  (by rw [hin]; injection heq with h2; rw [h2])
              | ok p =>
                obtain ⟨arg, st1⟩ := p
                simp only []
                exact ihLoop (LambdaTerm.Application acc arg) st1 bound x y
          | RParen =>
            simp only []
            exact ihLoop acc ⟨rest, pi - 1⟩ bound x y
          | Identifier id =>
            simp only []
            exact ihLoop (LambdaTerm.Application acc (LambdaTerm.Variable id)) ⟨rest, pi⟩ bound x y
          | Eof =>
            simp only []
            exact ihLoop acc ⟨rest, pi⟩ bound x y
          | Dot => simp

/-! ### Well-formed identifier names -/

theorem lexNext_ident_wf : ∀ cs s rest,
    lexNext cs = some (Token.Identifier s, rest) → wfName s = true := by
  intro cs
  induction cs with
  | nil => intro s rest h; simp [lexNext] at h
  | cons c cs0 ih =>
    intro s rest h
    simp only [lexNext] at h
    split at h
    · simp at h
    · split at h
      · simp at h
      · split at h
        · simp at h
        · split at h
          · simp at h
          · split at h
            · simp at h
            · split at h
              · rename_i h1 h2 h3 h4 h5 h6
                have hlam : ¬(c = 'λ') := by
                  intro hc
                  subst hc
                  simp at h3
                have hstart : identStart c = true := by
                  simp only [identStart, Bool.and_eq_true, Bool.or_eq_true,
                    Bool.not_eq_true', decide_eq_false_iff_not]
                  refine ⟨?_, hlam⟩
                  simpa using h6
                obtain ⟨taken, rm, heq, hall, -⟩ := identRun_shape cs0 [] c
                rw [heq] at h
                simp only [List.nil_append, Option.some.injEq, Prod.mk.injEq,
                  Token.Identifier.injEq] at h
                obtain ⟨rfl, -⟩ := h
                simp [wfName, hstart, hall]
              · exact ih s rest h

theorem tokens_wf_aux : ∀ (n : Nat) cs, cs.length ≤ n →
    ∀ s, Token.Identifier s ∈ tokens cs → wfName s = true := by
  intro n
  induction n with
  | zero =>
    intro cs hlen s hs
    have : cs = [] := List.eq_nil_of_length_eq_zero (Nat.le_zero.mp hlen)
    subst this
    simp [tokens, tokensF] at hs
  | succ n ih =>
    intro cs hlen s hs
    cases hx : lexNext cs with
    | none => rw [tokens_eq_none hx] at hs; simp at hs
    | some pr =>
      obtain ⟨t, r⟩ := pr
      rw [tokens_eq_some hx] at hs
      have hr := lexNext_length _ _ _ hx
      rcases List.mem_cons.mp hs with heq | hmem
      · subst heq
        exact lexNext_ident_wf _ _ _ hx
      · exact ih r (by omega) s hmem

/-- Every `Identifier` token the lexer emits carries a well-formed name. -/
theorem tokens_wf (cs : List Char) (s : String) (h : Token.Identifier s ∈ tokens cs) :
    wfName s = true :=
  tokens_wf_aux cs.length cs (le_refl _) s h

/-- Every name in a term the parser builds comes from an `Identifier`
token, hence parsed terms have only well-formed names. -/
theorem parseF_wf : ∀ fuel mode st bound t st2,
    (∀ s, Token.Identifier s ∈ st.toks → wfName s = true) →
    (∀ acc, mode = PMode.loop acc → wfTerm acc = true) →
    parseF fuel mode st bound = some (Except.ok (t, st2)) → wfTerm t = true := by
  intro fuel
  induction fuel with
  | zero => intro mode st bound t st2 _ _ h; simp [parseF] at h
  | succ n ih =>
    intro mode st bound t st2 hids hacc h
    obtain ⟨toks, pi⟩ := st
    simp only [] at hids
    cases mode with
    | term =>
      simp only [parseF] at h
      split at h
      · simp at h
      · cases toks with
        | nil => simp at h
        | cons tk rest =>
          have hids' : ∀ s, Token.Identifier s ∈ rest → wfName s = true :=
            fun s hs => hids s (List.mem_cons_of_mem _ hs)
          cases tk with
          | Lambda =>
            simp only [] at h
            cases hin : parseF n PMode.abstr ⟨rest, pi⟩ pi with
            | none => rw [hin] at h; simp at h
            | some r =>
              cases r with
              | error e => rw [hin] at h; simp at h
              | ok p =>
                obtain ⟨t1, st1⟩ := p
                rw [hin] at h
                simp only [] at h
                have ht1 : wfTerm t1 = true := ih _ _ _ _ _ hids' (by simp) hin
                have hsub : ∀ s, Token.Identifier s ∈ st1.toks → wfName s = true := by
                  intro s hs
                  apply hids'
                  obtain ⟨pre, hpre, -⟩ := parseF_bal _ _ _ _ _ _ hin
                  simp only [] at hpre
                  rw [hpre]
                  exact List.mem_append_right _ hs
                exact ih _ _ _ _ _ hsub (by intro a ha; cases ha; exact ht1) h
          | Dot => simp at h
          | RParen => simp at h
          | LParen =>
            simp only [] at h
            cases hin : parseF n PMode.term ⟨rest, pi + 1⟩ (pi + 1) with
            | none => rw [hin] at h; simp at h
            | some r =>
              cases r with
              | error e => rw [hin] at h; simp at h
              | ok p =>
                obtain ⟨t1, st1⟩ := p
                rw [hin] at h
                simp only [] at h
                have ht1 : wfTerm t1 = true := ih _ _ _ _ _ hids' (by simp) hin
                have hsub : ∀ s, Token.Identifier s ∈ st1.toks → wfName s = true := by
                  intro s hs
                  apply hids'
                  obtain ⟨pre, hpre, -⟩ := parseF_bal _ _ _ _ _ _ hin
                  simp only [] at hpre
                  rw [hpre]
                  exact List.mem_append_right _ hs
                exact ih _ _ _ _ _ hsub (by intro a ha; cases ha; exact ht1) h
          | Identifier id =>
            simp only [] at h
            have hid : wfName id = true := hids id (by simp)
            exact ih _ _ _ _ _ hids' (by intro a ha; cases ha; simpa [wfTerm] using hid) h
          | Eof => simp at h
    | abstr =>
      simp only [parseF] at h
      split at h
      · simp at h
      · cases toks with
        | nil => simp at h
        | cons tk rest =>
          cases tk with
          | Identifier bv =>
            simp only [] at h
            cases rest with
            | nil => simp at h
            | cons tk2 rest2 =>
              cases tk2 with
              | Dot =>
                simp only [] at h
                cases hin : parseF n PMode.term ⟨rest2, pi⟩ pi with
                | none => rw [hin] at h; simp at h
                | some r =>
                  cases r with
                  | error e => rw [hin] at h; simp at h
                  | ok p =>
                    obtain ⟨t1, st1⟩ := p
                    rw [hin] at h
                    simp only [Option.some.injEq, Except.ok.injEq, Prod.mk.injEq] at h
                    obtain ⟨heq, -⟩ := h
                    have hids2 : ∀ s, Token.Identifier s ∈ rest2 → wfName s = true :=
                      fun s hs => hids s (List.mem_cons_of_mem _ (List.mem_cons_of_mem _ hs))
                    have ht1 : wfTerm t1 = true := ih _ _ _ _ _ hids2 (by simp) hin
                    have hbv : wfName bv = true := hids bv (by simp)
                    rw [← heq]
                    simp [wfTerm, hbv, ht1]
              | LParen => simp at h
              | RParen => simp at h
              | Lambda => simp at h
              | Identifier id2 => simp at h
              | Eof => simp at h
          | LParen => simp at h
          | RParen => simp at h
          | Lambda => simp at h
          | Dot => simp at h
          | Eof => simp at h
    | loop acc =>
      have haccw : wfTerm acc = true := hacc acc rfl
      simp only [parseF] at h
      split at h
      · simp only [Option.some.injEq, Except.ok.injEq, Prod.mk.injEq] at h
        obtain ⟨rfl, -⟩ := h
        exact haccw
      · cases toks with
        | nil =>
          simp only [Option.some.injEq, Except.ok.injEq, Prod.mk.injEq] at h
          obtain ⟨rfl, -⟩ := h
          exact haccw
        | cons tk rest =>
          have hids' : ∀ s, Token.Identifier s ∈ rest → wfName s = true :=
            fun s hs => hids s (List.mem_cons_of_mem _ hs)
          cases tk with
          | LParen =>
            simp only [] at h
            cases hin : parseF n PMode.term ⟨rest, pi + 1⟩ (pi + 1) with
            | none => rw [hin] at h; simp at h
            | some r =>
              cases r with
              | error e => rw [hin] at h; simp at h
              | ok p =>
                obtain ⟨arg, st1⟩ := p
                rw [hin] at h
                simp only [] at h
                have harg : wfTerm arg = true := ih _ _ _ _ _ hids' (by simp) hin
                have hsub : ∀ s, Token.Identifier s ∈ st1.toks → wfName s = true := by
                  intro s hs
                  apply hids'
                  obtain ⟨pre, hpre, -⟩ := parseF_bal _ _ _ _ _ _ hin
                  simp only [] at hpre
                  rw [hpre]
                  exact List.mem_append_right _ hs
                refine ih _ _ _ _ _ hsub ?_ h
                intro a ha
                cases ha
                simp [wfTerm, haccw, harg]
          | Lambda =>
            simp only [] at h
            cases hin : parseF n PMode.abstr ⟨rest, pi⟩ pi with
            | none => rw [hin] at h; simp at h
            | some r =>
              cases r with
              | error e => rw [hin] at h; simp at h
              | ok p =>
                obtain ⟨arg, st1⟩ := p
                rw [hin] at h
                simp only [] at h
                have harg : wfTerm arg = true := ih _ _ _ _ _ hids' (by simp) hin
                have hsub : ∀ s, Token.Identifier s ∈ st1.toks → wfName s = true := by
                  intro s hs
                  apply hids'
                  obtain ⟨pre, hpre, -⟩ := parseF_bal _ _ _ _ _ _ hin
                  simp only [] at hpre
                  rw [hpre]
                  exact List.mem_append_right _ hs
                refine ih _ _ _ _ _ hsub ?_ h
                intro a ha
                cases ha
                simp [wfTerm, haccw, harg]
          | RParen =>
            simp only [] at h
            exact ih _ _ _ _ _ hids' (by intro a ha; cases ha; exact haccw) h
          | Identifier id =>
            simp only [] at h
            have hid : wfName id = true := hids id (by simp)
            refine ih _ _ _ _ _ hids' ?_ h
            intro a ha
            cases ha
            simp [wfTerm, haccw, hid]
          | Eof =>
            simp only [] at h
            exact ih _ _ _ _ _ hids' (by intro a ha; cases ha; exact haccw) h
          | Dot => simp at h

/-! ### Lexing a rendered term -/

theorem string_mk_data (s : String) : String.mk s.data = s := rfl

theorem str_data_append (s t : String) : (s ++ t).data = s.data ++ t.data := rfl

theorem tokens_lparen (cs : List Char) : tokens ('(' :: cs) = Token.LParen :: tokens cs :=
  tokens_eq_some (by simp [lexNext])

theorem tokens_rparen (cs : List Char) : tokens (')' :: cs) = Token.RParen :: tokens cs :=
  tokens_eq_some (by simp [lexNext])

theorem tokens_lambda (cs : List Char) : tokens ('λ' :: cs) = Token.Lambda :: tokens cs :=
  tokens_eq_some (by simp [lexNext])

theorem tokens_dot (cs : List Char) : tokens ('.' :: cs) = Token.Dot :: tokens cs :=
  tokens_eq_some (by simp [lexNext])

theorem lexNext_space (cs : List Char) : lexNext (' ' :: cs) = lexNext cs := by
  simp [lexNext, char_is_alphanumeric]

theorem tokens_space (cs : List Char) : tokens (' ' :: cs) = tokens cs := by
  cases hx : lexNext cs with
  | none => rw [tokens_eq_none (by rw [lexNext_space]; exact hx), tokens_eq_none hx]
  | some pr =>
    obtain ⟨t, r⟩ := pr
    rw [tokens_eq_some (show lexNext (' ' :: cs) = some (t, r) by rw [lexNext_space]; exact hx),
      tokens_eq_some hx]

theorem identStart_ne (c : Char) (hc : identStart c = true) (d : Char)
    (hd : identStart d = false) : ¬(c = d) := by
  intro hh
  subst hh
  rw [hc] at hd
  cases hd

/-- A legal identifier run followed by a non-continuing character lexes as
exactly one `Identifier` token carrying the whole run. -/
theorem tokens_ident_run (c : Char) (cs rest : List Char)
    (hc : identStart c = true) (hcs : cs.all identCont = true)
    (hrest : headNotContC rest = true) :
    tokens (c :: (cs ++ rest)) = Token.Identifier (String.mk (c :: cs)) :: tokens rest := by
  have h1 : ¬(c = '(') := identStart_ne c hc '(' (by decide)
  have h2 : ¬(c = ')') := identStart_ne c hc ')' (by decide)
  have h3 : ¬(c = 'λ') := identStart_ne c hc 'λ' (by decide)
  have h3b : ¬(c = '\\') := identStart_ne c hc '\\' (by decide)
  have h4 : ¬(c = '.') := identStart_ne c hc '.' (by decide)
  have h5 : ¬(c = '\x00') := identStart_ne c hc '\x00' (by decide)
  have h6 : (char_is_alphanumeric c || c = '_') = true := by
    simp only [identStart, Bool.and_eq_true] at hc
    exact hc.1
  apply tokens_eq_some
  simp [lexNext, h1, h2, h3, h3b, h4, h5, h6, identRun_spec cs [] c rest hcs hrest]

theorem headNotContC_cons (c : Char) (cs : List Char) (h : identCont c = false) :
    headNotContC (c :: cs) = true := by
  simp [headNotContC, h]

theorem data_lp : "(".data = ['('] := rfl

theorem data_rp_sp : ") ".data = [')', ' '] := rfl

theorem data_rp : ")".data = [')'] := rfl

theorem data_lam : "λ".data = ['λ'] := rfl

theorem data_dot_sp : ". ".data = ['.', ' '] := rfl

theorem data_sp : " ".data = [' '] := rfl

/-- Lexing the canonical rendering of a well-formed term, followed by any
non-continuing remainder, yields exactly `tokRender t` and the remainder's
tokens. -/
theorem render_tokens : ∀ t rest, wfTerm t = true → headNotContC rest = true →
    tokens ((LambdaTerm.render t).data ++ rest) = tokRender t ++ tokens rest := by
  intro t
  induction t with
  | Variable id =>
    intro rest hwf hrest
    simp only [wfTerm] at hwf
    cases hdata : id.data with
    | nil => simp only [wfName, hdata] at hwf; exact absurd hwf (by decide)
    | cons c cs =>
      have hid : identStart c = true ∧ cs.all identCont = true := by
        simp only [wfName, hdata, Bool.and_eq_true] at hwf
        exact hwf
      have hrend : (LambdaTerm.render (LambdaTerm.Variable id)).data ++ rest
          = c :: (cs ++ rest) := by
        simp [LambdaTerm.render, hdata]
      rw [hrend, tokens_ident_run c cs rest hid.1 hid.2 hrest, ← hdata, string_mk_data]
      simp [tokRender]
  | Abstraction x b ihb =>
    intro rest hwf hrest
    simp only [wfTerm, Bool.and_eq_true] at hwf
    obtain ⟨hx, hb⟩ := hwf
    cases hdata : x.data with
    | nil => simp only [wfName, hdata] at hx; exact absurd hx (by decide)
    | cons c cs =>
      have hid : identStart c = true ∧ cs.all identCont = true := by
        simp only [wfName, hdata, Bool.and_eq_true] at hx
        exact hx
      have hrend : (LambdaTerm.render (LambdaTerm.Abstraction x b)).data ++ rest
          = 'λ' :: (c :: (cs ++ ('.' :: ' ' :: ((LambdaTerm.render b).data ++ rest)))) := by
        simp [LambdaTerm.render, str_data_append, data_lam, data_dot_sp, hdata]
      rw [hrend, tokens_lambda,
        tokens_ident_run c cs _ hid.1 hid.2 (headNotContC_cons _ _ (by decide)),
        tokens_dot, tokens_space, ihb rest hb hrest, ← hdata, string_mk_data]
      simp [tokRender]
  | Application f a ihf iha =>
    intro rest hwf hrest
    simp only [wfTerm, Bool.and_eq_true] at hwf
    obtain ⟨hf, ha⟩ := hwf
    cases f with
    | Abstraction fx fb =>
      cases a with
      | Variable aid =>
        have hrend : (LambdaTerm.render
              (LambdaTerm.Application (LambdaTerm.Abstraction fx fb) (LambdaTerm.Variable aid))).data
              ++ rest
            = '(' :: ((LambdaTerm.render (LambdaTerm.Abstraction fx fb)).data
              ++ (')' :: ' ' :: ((LambdaTerm.render (LambdaTerm.Variable aid)).data ++ rest))) := by
          simp [LambdaTerm.render, str_data_append, data_lp, data_rp_sp]
        rw [hrend, tokens_lparen,
          ihf _ hf (headNotContC_cons _ _ (by decide)),
          tokens_rparen, tokens_space, iha rest ha hrest]
        simp [tokRender]
      | Abstraction ax ab =>
        have hrend : (LambdaTerm.render
              (LambdaTerm.Application (LambdaTerm.Abstraction fx fb) (LambdaTerm.Abstraction ax ab))).data
              ++ rest
            = '(' :: ((LambdaTerm.render (LambdaTerm.Abstraction fx fb)).data
              ++ (')' :: ' ' :: ('(' :: ((LambdaTerm.render (LambdaTerm.Abstraction ax ab)).data
                ++ (')' :: rest))))) := by
          simp [LambdaTerm.render, str_data_append, data_lp, data_rp_sp, data_rp]
        rw [hrend, tokens_lparen,
          ihf _ hf (headNotContC_cons _ _ (by decide)),
          tokens_rparen, tokens_space, tokens_lparen,
          iha _ ha (headNotContC_cons _ _ (by decide)),
          tokens_rparen]
        simp [tokRender]
      | Application af aa =>
        have hrend : (LambdaTerm.render
              (LambdaTerm.Application (LambdaTerm.Abstraction fx fb) (LambdaTerm.Application af aa))).data
              ++ rest
            = '(' :: ((LambdaTerm.render (LambdaTerm.Abstraction fx fb)).data
              ++ (')' :: ' ' :: ('(' :: ((LambdaTerm.render (LambdaTerm.Application af aa)).data
                ++ (')' :: rest))))) := by
          simp [LambdaTerm.render, str_data_append, data_lp, data_rp_sp, data_rp]
        rw [hrend, tokens_lparen,
          ihf _ hf (headNotContC_cons _ _ (by decide)),
          tokens_rparen, tokens_space, tokens_lparen,
          iha _ ha (headNotContC_cons _ _ (by decide)),
          tokens_rparen]
        simp [tokRender]
    | Variable fid =>
      cases a with
      | Variable aid =>
        have hrend : (LambdaTerm.render
              (LambdaTerm.Application (LambdaTerm.Variable fid) (LambdaTerm.Variable aid))).data
              ++ rest
            = (LambdaTerm.render (LambdaTerm.Variable fid)).data
              ++ (' ' :: ((LambdaTerm.render (LambdaTerm.Variable aid)).data ++ rest)) := by
          simp [LambdaTerm.render, str_data_append, data_sp]
        rw [hrend, ihf _ hf (headNotContC_cons _ _ (by decide)),
          tokens_space, iha rest ha hrest]
        simp [tokRender]
      | Abstraction ax ab =>
        have hrend : (LambdaTerm.render
              (LambdaTerm.Application (LambdaTerm.Variable fid) (LambdaTerm.Abstraction ax ab))).data
              ++ rest
            = (LambdaTerm.render (LambdaTerm.Variable fid)).data
              ++ (' ' :: ('(' :: ((LambdaTerm.render (LambdaTerm.Abstraction ax ab)).data
                ++ (')' :: rest)))) := by
          simp [LambdaTerm.render, str_data_append, data_sp, data_lp, data_rp]
        rw [hrend, ihf _ hf (headNotContC_cons _ _ (by decide)),
          tokens_space, tokens_lparen,
          iha _ ha (headNotContC_cons _ _ (by decide)),
          tokens_rparen]
        simp [tokRender]
      | Application af aa =>
        have hrend : (LambdaTerm.render
              (LambdaTerm.Application (LambdaTerm.Variable fid) (LambdaTerm.Application af aa))).data
              ++ rest
            = (LambdaTerm.render (LambdaTerm.Variable fid)).data
              ++ (' ' :: ('(' :: ((LambdaTerm.render (LambdaTerm.Application af aa)).data
                ++ (')' :: rest)))) := by
          simp [LambdaTerm.render, str_data_append, data_sp, data_lp, data_rp]
        rw [hrend, ihf _ hf (headNotContC_cons _ _ (by decide)),
          tokens_space, tokens_lparen,
          iha _ ha (headNotContC_cons _ _ (by decide)),
          tokens_rparen]
        simp [tokRender]
    | Application ff fa =>
      cases a with
      | Variable aid =>
        have hrend : (LambdaTerm.render
              (LambdaTerm.Application (LambdaTerm.Application ff fa) (LambdaTerm.Variable aid))).data
              ++ rest
            = (LambdaTerm.render (LambdaTerm.Application ff fa)).data
              ++ (' ' :: ((LambdaTerm.render (LambdaTerm.Variable aid)).data ++ rest)) := by
          simp [LambdaTerm.render, str_data_append, data_sp]
        rw [hrend, ihf _ hf (headNotContC_cons _ _ (by decide)),
          tokens_space, iha rest ha hrest]
        simp [tokRender]
      | Abstraction ax ab =>
        have hrend : (LambdaTerm.render
              (LambdaTerm.Application (LambdaTerm.Application ff fa) (LambdaTerm.Abstraction ax ab))).data
              ++ rest
            = (LambdaTerm.render (LambdaTerm.Application ff fa)).data
              ++ (' ' :: ('(' :: ((LambdaTerm.render (LambdaTerm.Abstraction ax ab)).data
                ++ (')' :: rest)))) := by
          simp [LambdaTerm.render, str_data_append, data_sp, data_lp, data_rp]
        rw [hrend, ihf _ hf (headNotContC_cons _ _ (by decide)),
          tokens_space, tokens_lparen,
          iha _ ha (headNotContC_cons _ _ (by decide)),
          tokens_rparen]
        simp [tokRender]
      | Application af aa =>
        have hrend : (LambdaTerm.render
              (LambdaTerm.Application (LambdaTerm.Application ff fa) (LambdaTerm.Application af aa))).data
              ++ rest
            = (LambdaTerm.render (LambdaTerm.Application ff fa)).data
              ++ (' ' :: ('(' :: ((LambdaTerm.render (LambdaTerm.Application af aa)).data
                ++ (')' :: rest)))) := by
          simp [LambdaTerm.render, str_data_append, data_sp, data_lp, data_rp]
        rw [hrend, ihf _ hf (headNotContC_cons _ _ (by decide)),
          tokens_space, tokens_lparen,
          iha _ ha (headNotContC_cons _ _ (by decide)),
          tokens_rparen]
        simp [tokRender]

/-! ### Application spines and the shape of rendered tokens -/

theorem argToks_eq (a : LambdaTerm) :
    (match a with
      | LambdaTerm.Variable id => [Token.Identifier id]
      | _ => Token.LParen :: (tokRender a ++ [Token.RParen])) = argToks a := by
  cases a <;> simp [argToks]

theorem argsToks_append : ∀ xs ys, argsToks (xs ++ ys) = argsToks xs ++ argsToks ys := by
  intro xs ys
  induction xs with
  | nil => simp [argsToks]
  | cons x xs ih => simp [argsToks, ih]

theorem spine_foldl : ∀ t, (spineArgs t).foldl LambdaTerm.Application (spineHead t) = t := by
  intro t
  induction t with
  | Application f a ihf _ => simp [spineHead, spineArgs, List.foldl_append, ihf]
  | Abstraction x b _ => simp [spineHead, spineArgs]
  | Variable id => simp [spineHead, spineArgs]

theorem spineHead_not_app : ∀ t f a, spineHead t ≠ LambdaTerm.Application f a := by
  intro t
  induction t with
  | Application g b ihg _ => intro f a; simpa [spineHead] using ihg f a
  | Abstraction x b _ => intro f a; simp [spineHead]
  | Variable id => intro f a; simp [spineHead]

theorem tokRender_spine : ∀ f a, tokRender (LambdaTerm.Application f a)
    = headToksA (spineHead (LambdaTerm.Application f a))
      ++ argsToks (spineArgs (LambdaTerm.Application f a)) := by
  intro f
  induction f with
  | Variable fid =>
    intro a
    simp only [tokRender, spineHead, spineArgs, argToks_eq]
    simp [headToksA, argsToks, tokRender]
  | Abstraction x b _ =>
    intro a
    simp only [tokRender, spineHead, spineArgs, argToks_eq]
    simp [headToksA, argsToks, tokRender]
  | Application g b ihg _ =>
    intro a
    have lhs : tokRender (LambdaTerm.Application (LambdaTerm.Application g b) a)
        = tokRender (LambdaTerm.Application g b) ++ argToks a := by
      simp only [tokRender, argToks_eq]
    rw [lhs, ihg b]
    simp only [spineHead, spineArgs]
    simp [argsToks_append, argsToks]

theorem wf_spine : ∀ t, wfTerm t = true →
    wfTerm (spineHead t) = true ∧ (∀ a ∈ spineArgs t, wfTerm a = true) := by
  intro t
  induction t with
  | Variable id => intro h; exact ⟨h, by simp [spineArgs]⟩
  | Abstraction x b _ => intro h; exact ⟨h, by simp [spineArgs]⟩
  | Application f a ihf _ =>
    intro h
    simp only [wfTerm, Bool.and_eq_true] at h
    obtain ⟨hf, ha⟩ := h
    obtain ⟨h1, h2⟩ := ihf hf
    refine ⟨by simpa [spineHead] using h1, ?_⟩
    intro u hu
    simp only [spineArgs, List.mem_append, List.mem_singleton] at hu
    rcases hu with hu | rfl
    · exact h2 u hu
    · exact ha

theorem parseF_loop_nil (n : Nat) (hn : 0 < n) (acc : LambdaTerm) (pi bound : Int) :
    parseF n (PMode.loop acc) ⟨[], pi⟩ bound = some (Except.ok (acc, ⟨[], pi⟩)) := by
  cases n with
  | zero => omega
  | succ m =>
    simp only [parseF]
    split <;> rfl

theorem parseF_loop_exit (n : Nat) (hn : 0 < n) (acc : LambdaTerm) (toks : List Token)
    (pi bound : Int) (h : pi < bound) :
    parseF n (PMode.loop acc) ⟨toks, pi⟩ bound = some (Except.ok (acc, ⟨toks, pi⟩)) := by
  cases n with
  | zero => omega
  | succ m =>
    simp only [parseF]
    rw [if_pos h]

theorem afterRest_rp_succ (r : List Token) (pi : Int) :
    afterRest (Token.RParen :: r) (pi + 1) = ⟨r, pi⟩ := by
  simp [afterRest]

theorem parseF_term_eq (n : Nat) (toks : List Token) (pi : Int) :
    parseF (n + 1) PMode.term ⟨toks, pi⟩ pi =
      (match toks with
      | [] => some (Except.error ParserError.PrematureEnd)
      | Token.Lambda :: rest =>
        match parseF n PMode.abstr ⟨rest, pi⟩ pi with
        | none => none
        | some (Except.error e) => some (Except.error e)
        | some (Except.ok (t, st2)) => parseF n (PMode.loop t) st2 pi
      | Token.Dot :: _ => some (Except.error (ParserError.Unexpected Token.Dot))
      | Token.RParen :: _ => some (Except.error (ParserError.Unexpected Token.RParen))
      | Token.LParen :: rest =>
        match parseF n PMode.term ⟨rest, pi + 1⟩ (pi + 1) with
        | none => none
        | some (Except.error e) => some (Except.error e)
        | some (Except.ok (t, st2)) => parseF n (PMode.loop t) st2 pi
      | Token.Identifier id :: rest =>
        parseF n (PMode.loop (LambdaTerm.Variable id)) ⟨rest, pi⟩ pi
      | Token.Eof :: _ => some (Except.error ParserError.PrematureEnd)) := by
  simp only [parseF]
  rw [if_neg (lt_irrefl pi)]

theorem parseF_abstr_eq (n : Nat) (toks : List Token) (pi : Int) :
    parseF (n + 1) PMode.abstr ⟨toks, pi⟩ pi =
      (match toks with
      | [] => some (Except.error ParserError.PrematureEnd)
      | Token.Identifier bv :: rest =>
        (match rest with
         | [] => some (Except.error ParserError.PrematureEnd)
         | Token.Dot :: rest2 =>
           match parseF n PMode.term ⟨rest2, pi⟩ pi with
           | none => none
           | some (Except.error e) => some (Except.error e)
           | some (Except.ok (t, st2)) =>
             some (Except.ok (LambdaTerm.Abstraction bv t, st2))
         | t2 :: _ => some (Except.error (ParserError.ExpectedGot Token.Dot t2)))
      | t1 :: _ => some (Except.error (ParserError.ExpectedIdentifierGot t1))) := by
  simp only [parseF]
  rw [if_neg (lt_irrefl pi)]

theorem parseF_loop_eq (n : Nat) (acc : LambdaTerm) (toks : List Token) (pi bound : Int)
    (h : ¬(pi < bound)) :
    parseF (n + 1) (PMode.loop acc) ⟨toks, pi⟩ bound =
      (match toks with
      | [] => some (Except.ok (acc, (⟨[], pi⟩ : PState)))
      | Token.LParen :: rest =>
        match parseF n PMode.term ⟨rest, pi + 1⟩ (pi + 1) with
        | none => none
        | some (Except.error e) => some (Except.error e)
        | some (Except.ok (arg, st2)) =>
          parseF n (PMode.loop (LambdaTerm.Application acc arg)) st2 bound
      | Token.RParen :: rest =>
        parseF n (PMode.loop acc) ⟨rest, pi - 1⟩ bound
      | Token.Lambda :: rest =>
        match parseF n PMode.abstr ⟨rest, pi⟩ pi with
        | none => none
        | some (Except.error e) => some (Except.error e)
        | some (Except.ok (arg, st2)) =>
          parseF n (PMode.loop (LambdaTerm.Application acc arg)) st2 bound
      | Token.Identifier id :: rest =>
        parseF n (PMode.loop (LambdaTerm.Application acc (LambdaTerm.Variable id)))
          ⟨rest, pi⟩ bound
      | Token.Eof :: rest => parseF n (PMode.loop acc) ⟨rest, pi⟩ bound
      | Token.Dot :: _ => some (Except.error (ParserError.Unexpected Token.Dot))) := by
  simp only [parseF]
  rw [if_neg h]
  cases toks with
  | nil => rfl
  | cons tk rest => cases tk <;> rfl

/-- Re-parsing simulation: on the tokens of a rendered well-formed term
followed by an empty or `RParen`-headed remainder, `parse_term` (and its
application loop, and `parse_abstraction` after its `λ`) rebuilds exactly
the original term and stops at the remainder. -/
theorem parse_sim : ∀ fuel,
    (∀ t pi rest, wfTerm t = true → headRP rest = true →
      (tokRender t).length + rest.length < fuel →
      parseF fuel PMode.term ⟨tokRender t ++ rest, pi⟩ pi
        = some (Except.ok (t, afterRest rest pi))) ∧
    (∀ args acc pi rest, args.all wfTerm = true → headRP rest = true →
      (argsToks args).length + rest.length < fuel →
      parseF fuel (PMode.loop acc) ⟨argsToks args ++ rest, pi⟩ pi
        = some (Except.ok (args.foldl LambdaTerm.Application acc, afterRest rest pi))) ∧
    (∀ x b pi rest, wfTerm b = true → headRP rest = true →
      (tokRender b).length + rest.length + 2 < fuel →
      parseF fuel PMode.abstr ⟨Token.Identifier x :: Token.Dot :: (tokRender b ++ rest), pi⟩ pi
        = some (Except.ok (LambdaTerm.Abstraction x b, afterRest rest pi))) := by
  intro fuel
  induction fuel with
  | zero =>
    refine ⟨fun t pi rest _ _ h => ?_, fun args acc pi rest _ _ h => ?_,
      fun x b pi rest _ _ h => ?_⟩ <;> omega
  | succ n ih =>
    obtain ⟨ihA, ihB, ihC⟩ := ih
    refine ⟨?_, ?_, ?_⟩
    · intro t pi rest hwf hrp hlen
      cases t with
      | Variable id =>
        simp only [tokRender, List.cons_append, List.nil_append] at hlen ⊢
        rw [parseF_term_eq]
        simp only []
        have := ihB [] (LambdaTerm.Variable id) pi rest rfl hrp
          (by simp only [argsToks, List.length_nil, List.length_cons] at hlen ⊢; omega)
        simpa [argsToks] using this
      | Abstraction x b =>
        have hb : wfTerm b = true := by
          simp only [wfTerm, Bool.and_eq_true] at hwf
          exact hwf.2
        simp only [tokRender, List.cons_append] at hlen ⊢
        rw [parseF_term_eq]
        simp only []
        rw [ihC x b pi rest hb hrp
          (by simp only [List.length_cons] at hlen; omega)]
        simp only []
        cases rest with
        | nil =>
          simp only [afterRest]
          exact parseF_loop_nil n
            (by simp only [List.length_cons, List.length_nil] at hlen; omega) _ pi pi
        | cons tk r =>
          cases tk <;> simp [headRP] at hrp
          simp only [afterRest]
          exact parseF_loop_exit n
            (by simp only [List.length_cons] at hlen; omega) _ r (pi - 1) pi (by omega)
      | Application f a =>
        have hsp := spine_foldl (LambdaTerm.Application f a)
        have hwfs := wf_spine (LambdaTerm.Application f a) hwf
        have harg : (spineArgs (LambdaTerm.Application f a)).all wfTerm = true := by
          rw [List.all_eq_true]
          intro u hu
          exact hwfs.2 u hu
        rw [tokRender_spine f a] at hlen
        rw [tokRender_spine f a]
        cases hhd : spineHead (LambdaTerm.Application f a) with
        | Application f2 a2 => exact absurd hhd (spineHead_not_app _ f2 a2)
        | Variable id =>
          rw [hhd] at hlen hsp
          simp only [headToksA, tokRender, List.cons_append, List.nil_append,
            List.append_assoc] at hlen ⊢
          rw [parseF_term_eq]
          simp only []
          rw [ihB (spineArgs (LambdaTerm.Application f a)) (LambdaTerm.Variable id) pi rest
            harg hrp
            (by simp only [List.length_cons, List.length_append] at hlen ⊢; omega)]
          rw [hsp]
        | Abstraction hx hb =>
          rw [hhd] at hlen hsp
          have hwfh : wfTerm (LambdaTerm.Abstraction hx hb) = true := by
            rw [← hhd]
            exact hwfs.1
          simp only [headToksA, List.cons_append, List.append_assoc,
            List.singleton_append, List.nil_append] at hlen ⊢
          rw [parseF_term_eq]
          simp only []
          rw [ihA (LambdaTerm.Abstraction hx hb) (pi + 1)
            (Token.RParen :: (argsToks (spineArgs (LambdaTerm.Application f a)) ++ rest))
            hwfh (by simp [headRP])
            (by simp only [List.length_cons, List.length_append] at hlen ⊢; omega)]
          simp only []
          rw [afterRest_rp_succ]
          rw [ihB (spineArgs (LambdaTerm.Application f a))
            (LambdaTerm.Abstraction hx hb) pi rest harg hrp
            (by simp only [List.length_cons, List.length_append] at hlen ⊢; omega)]
          rw [hsp]
    · intro args acc pi rest hall hrp hlen
      cases args with
      | nil =>
        simp only [argsToks, List.nil_append, List.foldl_nil] at hlen ⊢
        cases rest with
        | nil =>
          simp only [afterRest]
          exact parseF_loop_nil (n + 1) (by omega) acc pi pi
        | cons tk r =>
          cases tk <;> simp [headRP] at hrp
          rw [parseF_loop_eq n acc _ pi pi (lt_irrefl pi)]
          simp only [afterRest]
          exact parseF_loop_exit n
            (by simp only [List.length_cons, List.length_nil] at hlen; omega)
            acc r (pi - 1) pi (by omega)
      | cons a args2 =>
        have hwa : wfTerm a = true ∧ args2.all wfTerm = true := by
          simp only [List.all_cons, Bool.and_eq_true] at hall
          exact hall
        cases a with
        | Variable id =>
          simp only [argsToks, argToks, List.cons_append, List.nil_append,
            List.append_assoc] at hlen ⊢
          rw [parseF_loop_eq n acc _ pi pi (lt_irrefl pi)]
          simp only []
          rw [ihB args2 (LambdaTerm.Application acc (LambdaTerm.Variable id)) pi rest
            hwa.2 hrp
            (by simp only [List.length_cons, List.length_append] at hlen ⊢; omega)]
          simp only [List.foldl_cons]
        | Abstraction ax ab =>
          simp only [argsToks, argToks, List.cons_append, List.nil_append,
            List.append_assoc, List.singleton_append] at hlen ⊢
          rw [parseF_loop_eq n acc _ pi pi (lt_irrefl pi)]
          simp only []
          rw [ihA (LambdaTerm.Abstraction ax ab) (pi + 1)
            (Token.RParen :: (argsToks args2 ++ rest)) hwa.1 (by simp [headRP])
            (by simp only [List.length_cons, List.length_append] at hlen ⊢; omega)]
          simp only []
          rw [afterRest_rp_succ]
          rw [ihB args2 (LambdaTerm.Application acc (LambdaTerm.Abstraction ax ab)) pi rest
            hwa.2 hrp
            (by simp only [List.length_cons, List.length_append] at hlen ⊢; omega)]
          simp only [List.foldl_cons]
        | Application af aa =>
          simp only [argsToks, argToks, List.cons_append, List.nil_append,
            List.append_assoc, List.singleton_append] at hlen ⊢
          rw [parseF_loop_eq n acc _ pi pi (lt_irrefl pi)]
          simp only []
          rw [ihA (LambdaTerm.Application af aa) (pi + 1)
            (Token.RParen :: (argsToks args2 ++ rest)) hwa.1 (by simp [headRP])
            (by simp only [List.length_cons, List.length_append] at hlen ⊢; omega)]
          simp only []
          rw [afterRest_rp_succ]
          rw [ihB args2 (LambdaTerm.Application acc (LambdaTerm.Application af aa)) pi rest
            hwa.2 hrp
            (by simp only [List.length_cons, List.length_append] at hlen ⊢; omega)]
          simp only [List.foldl_cons]
    · intro x b pi rest hwf hrp hlen
      rw [parseF_abstr_eq]
      simp only []
      rw [ihA b pi rest hwf hrp (by omega)]

/-! ### De Bruijn reindex involution -/

/-- `reindex` is an involution at every depth: `depth - (depth - n + 1) + 1`
wraps back to `n` in `usize` arithmetic whenever `n` is a `usize` value. -/
theorem reindex_reindex : ∀ t (d : Nat), db_wf t = true → reindex (reindex t d) d = t := by
  intro t
  induction t with
  | Variable n =>
    intro d h
    simp only [db_wf, decide_eq_true_eq] at h
    simp only [reindex, DBTerm.Variable.injEq]
    simp only [usize_add, usize_sub, USIZE] at *
    rw [show (2:Nat)^64 = 18446744073709551616 from by norm_num] at *
    omega
  | FreeVariable id => intro d _; simp [reindex]
  | Application f a ihf iha =>
    intro d h
    simp only [db_wf, Bool.and_eq_true] at h
    simp [reindex, ihf d h.1, iha d h.2]
  | Abstraction b ihb =>
    intro d h
    simp only [db_wf] at h
    simp [reindex, ihb _ h]

/-! ### Unpacking `parse` -/

/-- A successful `parse` comes from a successful top-level `parse_term`
run that ends with `paren_index = 0`. -/
theorem parse_ok_parseTop {cs : List Char} {t : LambdaTerm} (h : parse cs = Except.ok t) :
    ∃ st2, parseTop cs = some (Except.ok (t, st2)) ∧ st2.paren_index = 0 := by
  unfold parse at h
  cases htop : parseTop cs with
  | none => rw [htop] at h; simp at h
  | some r =>
    cases r with
    | error e => rw [htop] at h; simp at h
    | ok p =>
      obtain ⟨t0, st⟩ := p
      rw [htop] at h
      simp only [] at h
      by_cases hpi : st.paren_index ≠ 0
      · rw [if_pos hpi] at h
        simp at h
      · rw [if_neg hpi] at h
        simp only [Except.ok.injEq] at h
        subst h
        exact ⟨st, rfl, by omega⟩

/-- Terms produced by `parse` carry only well-formed names. -/
theorem parse_wf_out (cs : List Char) (t : LambdaTerm) (h : parse cs = Except.ok t) :
    wfTerm t = true := by
  obtain ⟨st2, htop, -⟩ := parse_ok_parseTop h
  unfold parseTop at htop
  exact parseF_wf _ _ _ _ _ _ (fun s hs => tokens_wf cs s hs) (fun acc hacc => by cases hacc) htop

/-! ### Claim theorems -/

/-- C1: the claim says `free_variables` returns the standard free-variable
set, so that an Abstraction's removal of its bound name never affects
sibling subterms, and that `Application(Variable "x", Abstraction("x",
Variable "x"))` has free-variable set `{"x"}`.  The code threads one
shared set through the traversal, so the Abstraction's `remove` also
deletes the `"x"` contributed by the sibling function position: the code
returns `∅` there, while the spec's definition (and the repository's own
De Bruijn converter, which classifies that same occurrence as a
`FreeVariable`) give `{"x"}`. -/
theorem c1_free_variables_shared_set_bug :
    LambdaTerm.free_variables (LambdaTerm.Application (LambdaTerm.Variable "x")
      (LambdaTerm.Abstraction "x" (LambdaTerm.Variable "x"))) = (∅ : Finset String) ∧
    spec_free_variables (LambdaTerm.Application (LambdaTerm.Variable "x")
      (LambdaTerm.Abstraction "x" (LambdaTerm.Variable "x"))) = {"x"} ∧
    lambdaToDBLevels (LambdaTerm.Application (LambdaTerm.Variable "x")
      (LambdaTerm.Abstraction "x" (LambdaTerm.Variable "x")))
      = DBTerm.Application (DBTerm.FreeVariable "x") (DBTerm.Abstraction (DBTerm.Variable 1)) :=
  ⟨by decide, by decide, by decide⟩

/-- C2 counterexample: the input `"a_b"` is a maximal run of
alphanumeric-and-underscore characters, but the lexer emits it as two
`Identifier` tokens, because the continuation lookahead accepts only
alphanumeric characters (not underscore). -/
theorem c2_counterexample :
    tokens ("a_b".data) = [Token.Identifier "a", Token.Identifier "_b"] ∧
    tokens ("a_b".data) ≠ [Token.Identifier "a_b"] :=
  ⟨by decide, by decide⟩

/-- C2 (amended): a run starting with an alphanumeric-or-underscore
character whose later characters are all alphanumeric (and not `λ`),
delimited by a non-continuing character or the input boundary, is emitted
as exactly one `Identifier` token containing the whole run; a maximal
alphanumeric-and-underscore run is split immediately before each interior
underscore (e.g. `"a_b"` lexes as `Identifier "a"`, `Identifier "_b"`). -/
theorem c2_identifier_runs (c : Char) (cs rest : List Char)
    (hc : identStart c = true) (hcs : cs.all identCont = true)
    (hrest : headNotContC rest = true) :
    tokens (c :: (cs ++ rest)) = Token.Identifier (String.mk (c :: cs)) :: tokens rest :=
  tokens_ident_run c cs rest hc hcs hrest

theorem c2_identifier_runs_witness :
    identStart 'a' = true ∧ ['b'].all identCont = true ∧ headNotContC [' ', 'c'] = true ∧
    tokens ('a' :: (['b'] ++ [' ', 'c'])) = Token.Identifier "ab" :: tokens [' ', 'c'] :=
  ⟨by decide, by decide, by decide,
    c2_identifier_runs 'a' ['b'] [' ', 'c'] (by decide) (by decide) (by decide)⟩

/-- C3: converting a `DBTerm` from Levels to Indices and back is the
identity on the tree, for arbitrary stored numbers (every Rust `usize`
value, i.e. every number below `2 ^ 64`; the arithmetic wraps modulo
`2 ^ 64` and `depth - (depth - n + 1) + 1` wraps back to `n`). -/
theorem c3_levels_indices_roundtrip (t : DBTerm) (h : db_wf t = true) :
    dbIndicesToLevels (dbLevelsToIndices t) = t :=
  reindex_reindex t 0 h

theorem c3_levels_indices_roundtrip_witness :
    db_wf (DBTerm.Application (DBTerm.Variable 0) (DBTerm.Abstraction (DBTerm.Variable 2))) = true ∧
    dbIndicesToLevels (dbLevelsToIndices (DBTerm.Application (DBTerm.Variable 0)
      (DBTerm.Abstraction (DBTerm.Variable 2))))
      = DBTerm.Application (DBTerm.Variable 0) (DBTerm.Abstraction (DBTerm.Variable 2)) :=
  ⟨by decide, c3_levels_indices_roundtrip _ (by decide)⟩

/-- C4: whenever `parse` succeeds with term `t`, lexing and parsing the
canonical rendering of `t` succeeds and returns a term structurally equal
to `t` (the very same `LambdaTerm` value: same variants and names). -/
theorem c4_render_reparse (cs : List Char) (t : LambdaTerm) (h : parse cs = Except.ok t) :
    parse ((LambdaTerm.render t).data) = Except.ok t := by
  have hwf : wfTerm t = true := parse_wf_out cs t h
  have htoks : tokens ((LambdaTerm.render t).data) = tokRender t := by
    have hr := render_tokens t [] hwf rfl
    rw [List.append_nil] at hr
    rw [hr]
    simp [tokens, tokensF]
  unfold parse parseTop
  rw [htoks]
  have hsim := (parse_sim ((tokRender t).length + 1)).1 t 0 [] hwf rfl (by simp)
  rw [List.append_nil] at hsim
  rw [hsim]
  simp [afterRest]

theorem c4_render_reparse_witness :
    parse ("(λx. x) y".data) = Except.ok (LambdaTerm.Application
      (LambdaTerm.Abstraction "x" (LambdaTerm.Variable "x")) (LambdaTerm.Variable "y")) ∧
    parse ((LambdaTerm.render (LambdaTerm.Application
      (LambdaTerm.Abstraction "x" (LambdaTerm.Variable "x")) (LambdaTerm.Variable "y"))).data)
      = Except.ok (LambdaTerm.Application
        (LambdaTerm.Abstraction "x" (LambdaTerm.Variable "x")) (LambdaTerm.Variable "y")) :=
  ⟨by decide, c4_render_reparse ("(λx. x) y".data) _ (by decide)⟩

/-- C5: `parse` returns a `LambdaTerm` exactly when the top-level
`parse_term` run succeeds and leaves `paren_index = 0`; if that run
succeeds with a nonzero `paren_index`, `parse` returns
`UnmatchedParens` carrying that index. -/
theorem c5_parse_paren_zero (cs : List Char) :
    (∀ t st2, parseTop cs = some (Except.ok (t, st2)) →
      (st2.paren_index = 0 → parse cs = Except.ok t) ∧
      (st2.paren_index ≠ 0 →
        parse cs = Except.error (ParserError.UnmatchedParens st2.paren_index))) ∧
    (∀ t, parse cs = Except.ok t →
      ∃ st2, parseTop cs = some (Except.ok (t, st2)) ∧ st2.paren_index = 0) := by
  constructor
  · intro t st2 htop
    constructor
    · intro hz
      unfold parse
      rw [htop]
      simp [hz]
    · intro hnz
      unfold parse
      rw [htop]
      simp [hnz]
  · intro t h
    exact parse_ok_parseTop h

theorem c5_parse_paren_zero_witness :
    parseTop ("(x".data) = some (Except.ok (LambdaTerm.Variable "x", ⟨[], 1⟩)) ∧
    parse ("(x".data) = Except.error (ParserError.UnmatchedParens 1) :=
  ⟨by decide,
    ((c5_parse_paren_zero ("(x".data)).1 (LambdaTerm.Variable "x") ⟨[], 1⟩ (by decide)).2
      (by decide)⟩

/-- C6 counterexample: `"x ("` is an otherwise-valid input (`"x "` parses
to `Variable "x"`) containing exactly one unmatched open parenthesis, yet
`parse` fails with `PrematureEnd` — neither `UnmatchedParens` nor
`ParenOutOfBounds` — because the stray `(` leaves the nested `parse_term`
with no token to start a term. -/
theorem c6_counterexample :
    parse ("x (".data) = Except.error ParserError.PrematureEnd ∧
    parse ("x ".data) = Except.ok (LambdaTerm.Variable "x") :=
  ⟨by decide, by decide⟩

/-- C6 (amended): any input whose token stream has unequal open- and
close-paren counts (in particular an otherwise-valid input with exactly
one unmatched `(`) makes `parse` fail — with `UnmatchedParens` when the
whole stream is consumed, but the imbalance may instead surface as
another error such as `PrematureEnd`; and any input whose first token is
a right parenthesis fails with `Unexpected(RParen)`. -/
theorem c6_unbalanced_fails (cs : List Char) :
    (balance (tokens cs) ≠ 0 → ∀ t, parse cs ≠ Except.ok t) ∧
    (∀ ts, tokens cs = Token.RParen :: ts →
      parse cs = Except.error (ParserError.Unexpected Token.RParen)) := by
  constructor
  · intro hbal t hok
    obtain ⟨st2, htop, hz⟩ := parse_ok_parseTop hok
    unfold parseTop at htop
    have hexit := (parseF_exit ((tokens cs).length + 1) ⟨tokens cs, 0⟩ 0).1 _ _ htop
    have htoks : st2.toks = [] := by
      rcases hexit with h | h
      · exact h
      · omega
    obtain ⟨pre, hpre, hbal2⟩ := parseF_bal _ _ _ _ _ _ htop
    simp only [htoks, List.append_nil] at hpre
    simp only [] at hbal2
    rw [hpre] at hbal
    omega
  · intro ts hts
    unfold parse parseTop
    rw [hts]
    simp only [List.length_cons]
    rw [parseF_term_eq]

theorem c6_unbalanced_fails_witness :
    balance (tokens ("(x".data)) ≠ 0 ∧
    parse ("(x".data) ≠ Except.ok (LambdaTerm.Variable "x") ∧
    parse (")".data) = Except.error (ParserError.Unexpected Token.RParen) :=
  ⟨by decide, (c6_unbalanced_fails ("(x".data)).1 (by decide) _,
    (c6_unbalanced_fails (")".data)).2 [] (by decide)⟩

/-- C7: the worked example — parsing `λx.λy.x y` succeeds, the term
renders as `λx. λy. x y`, and its De Bruijn indices (computed via
levels) render as `λ λ 2 1`. -/
theorem c7_concrete_example :
    parse ("λx.λy.x y".data) = Except.ok (LambdaTerm.Abstraction "x"
      (LambdaTerm.Abstraction "y"
        (LambdaTerm.Application (LambdaTerm.Variable "x") (LambdaTerm.Variable "y")))) ∧
    LambdaTerm.render (LambdaTerm.Abstraction "x" (LambdaTerm.Abstraction "y"
      (LambdaTerm.Application (LambdaTerm.Variable "x") (LambdaTerm.Variable "y"))))
      = "λx. λy. x y" ∧
    DBTerm.render (lambdaToDBIndices (LambdaTerm.Abstraction "x" (LambdaTerm.Abstraction "y"
      (LambdaTerm.Application (LambdaTerm.Variable "x") (LambdaTerm.Variable "y")))))
      = "λ λ 2 1" :=
  ⟨by decide, by decide, by decide⟩

/-- C8: the slash-to-lambda utility maps the input character-by-character,
replacing every backslash with `λ` and leaving every other character
unchanged (same length, pointwise image). -/
theorem c8_slash_to_lambda (text : List Char) :
    (slash_to_lambda text).length = text.length ∧
    ∀ i : Nat, (slash_to_lambda text)[i]? =
      (text[i]?).map (fun ch => if ch = '\\' then 'λ' else ch) := by
  constructor
  · simp [slash_to_lambda]
  · intro i
    simp [slash_to_lambda]

/-- C9: on every finite input the parser terminates with a value: with
fuel exceeding the token count (each recursive step consumes a token),
the fuelled parser never reaches the fuel cutoff, so the top-level run
always returns a `LambdaTerm` or a `ParserError`. -/
theorem c9_parse_total (cs : List Char) : parseTop cs ≠ none := by
  unfold parseTop
  exact parseF_total _ _ _ _ (Nat.lt_succ_self _)

/-- C10: `parse` never returns `ParenOutOfBounds`: every call to
`parse_term` and `parse_abstraction` passes the current `paren_index` as
the bound, so `check_bounds` never fails. -/
theorem c10_no_paren_out_of_bounds (cs : List Char) (b i : Int) :
    parse cs ≠ Except.error (ParserError.ParenOutOfBounds b i) := by
  intro h
  unfold parse at h
  cases htop : parseTop cs with
  | none => rw [htop] at h; simp at h
  | some r =>
    cases r with
    | error e =>
      rw [htop] at h
      simp only [Except.error.injEq] at h
      subst h
      unfold parseTop at htop
      exact ((parseF_noPOOB _).1 ⟨tokens cs, 0⟩ 0 (le_refl 0)) b i htop
    | ok p =>
      obtain ⟨t0, st⟩ := p
      rw [htop] at h
      simp only [] at h
      split at h
      · simp at h
      · simp at h
